import Mathlib

/-!
Verification of the blog-analysis repository's text-processing core.

Text is modelled as `List Char` (Python `str` indexing is by character).
Each definition is a shallow embedding of a function from the repository
source; the originating file and lines are named in the doc comments.
Regular-expression substitutions are embedded as explicit left-to-right
scanners with the exact matching semantics of the Python `re` module
(leftmost match, greedy/lazy quantifiers as in the pattern,
`.` not matching a newline, `\s` = whitespace, `\S` = non-whitespace).
Fallible Python code (paths that raise an exception) is modelled with
`Option`/`Except`, where `none`/`error` marks a raised exception.
-/

abbrev Text := List Char

/-- Newline character, written by code to avoid escape sequences. -/
def nlChar : Char := Char.ofNat 10

/-- Tab character. -/
def tabChar : Char := Char.ofNat 9

/-- Carriage-return character. -/
def crChar : Char := Char.ofNat 13

/-- Vertical-tab character. -/
def vtChar : Char := Char.ofNat 11

/-- Form-feed character. -/
def ffChar : Char := Char.ofNat 12

/-- Straight double-quote character. -/
def dqChar : Char := Char.ofNat 34

/-- Straight single-quote (apostrophe) character. -/
def sqChar : Char := Char.ofNat 39

/-- Left brace character. -/
def lbChar : Char := Char.ofNat 123

/-- Right brace character. -/
def rbChar : Char := Char.ofNat 125

/-- Left curly double quote. -/
def ldqChar : Char := Char.ofNat 0x201C

/-- Right curly double quote. -/
def rdqChar : Char := Char.ofNat 0x201D

/-- Left curly single quote. -/
def lsqChar : Char := Char.ofNat 0x2018

/-- Right curly single quote. -/
def rsqChar : Char := Char.ofNat 0x2019

/-- Python regex `\s` / `str.strip()` whitespace (ASCII part). -/
def pySpace (c : Char) : Bool :=
  c = ' ' || c = tabChar || c = nlChar || c = crChar || c = vtChar || c = ffChar

/-- Python regex `\w` word character (ASCII model): alphanumeric or underscore. -/
def isWordChar (c : Char) : Bool := c.isAlphanum || c = '_'

/-- `leadsWith pat t`: `t` starts with the literal `pat`. -/
def leadsWith : Text → Text → Bool
  | [], _ => true
  | _ :: _, [] => false
  | p :: ps, c :: cs => p = c && leadsWith ps cs

/-- First index `i ≥ start` with `t[i] = c`, as in Python `text.find(c, start)`
(returning `none` where Python returns `-1`); helper scanning a suffix. -/
def findIdxAux : Text → Char → Nat → Option Nat
  | [], _, _ => none
  | x :: xs, c, i => if x = c then some i else findIdxAux xs c (i + 1)

/-- `text.find(c, start)` of Python for single-character needles. -/
def findFrom (t : Text) (c : Char) (start : Nat) : Option Nat :=
  findIdxAux (t.drop start) c start

/-- Python `str.strip()` of leading whitespace followed by the trailing side;
`dropTrailing` removes trailing whitespace structurally. -/
def dropTrailing : Text → Text
  | [] => []
  | c :: rest =>
    match dropTrailing rest with
    | [] => if pySpace c then [] else [c]
    | r => c :: r

/-- Python `str.strip()`. -/
def pyStrip (t : Text) : Text := dropTrailing (t.dropWhile pySpace)

/-- `text[a:b]` of Python (for `0 ≤ a ≤ b`). -/
def pySlice (t : Text) (a b : Nat) : Text := (t.drop a).take (b - a)

/-!
## Quote-region detection

`count_personal_pronouns` (src/make_analysis.py lines 656-744 and
src/modular/article_processor.py lines 112-192) scans left to right for the
earliest opening quote of any recognised kind, searches forward for its
matching closer (taking end-of-text when unbalanced) and repeats after the
consumed region.  The two copies differ only in the `quote_pairs` dict.
-/

/-- `quote_pairs` of src/make_analysis.py: straight double quote and the
curly double/single quotes, each mapped to its closer. -/
def maQuotePairs : List (Char × Char) :=
  [(dqChar, dqChar), (ldqChar, rdqChar), (lsqChar, rsqChar)]

/-- `quote_pairs` of src/modular/article_processor.py: straight double quote
and straight single quote (apostrophe), each its own closer. -/
def apQuotePairs : List (Char × Char) :=
  [(dqChar, dqChar), (sqChar, sqChar)]

/-- The inner `for open_quote in quote_pairs.keys()` loop: earliest opening
quote at or after `pos`, paired with its closing quote (strict `<` keeps the
earlier dict entry, so the head of the list wins ties). -/
def nextOpen : List (Char × Char) → Text → Nat → Option (Nat × Char)
  | [], _, _ => none
  | oc :: rest, t, pos =>
    match findFrom t oc.1 pos, nextOpen rest t pos with
    | none, r => r
    | some p, none => some (p, oc.2)
    | some p, some (q, c) => if p ≤ q then some (p, oc.2) else some (q, c)

/-- One iteration of the `while current_pos < text_length` scan, with fuel;
each iteration strictly advances `pos`, so `t.length + 1` fuel suffices. -/
def quoteStep (pairs : List (Char × Char)) (t : Text) : Nat → Nat → List (Nat × Nat)
  | 0, _ => []
  | fuel + 1, pos =>
    match nextOpen pairs t pos with
    | none => []
    | some (s, closer) =>
      (s, (findFrom t closer (s + 1)).getD (t.length - 1)) ::
        quoteStep pairs t fuel ((findFrom t closer (s + 1)).getD (t.length - 1) + 1)

/-- Step 1 of `count_personal_pronouns`: the recorded quoted regions. -/
def findQuotes (pairs : List (Char × Char)) (t : Text) : List (Nat × Nat) :=
  quoteStep pairs t (t.length + 1) 0

/-- `is_in_quotes(pos)` of the source. -/
def inQuotes (quotes : List (Nat × Nat)) (pos : Nat) : Bool :=
  quotes.any (fun r => r.1 ≤ pos && pos ≤ r.2)

/-!
## Sentence segmentation

Step 2 of `count_personal_pronouns`: split on `[.!?]`, punctuation kept with
the preceding sentence, stripped sentences recorded with their raw spans,
trailing unterminated text forming a final sentence.
-/

/-- Sentence-boundary characters of the regex `([.!?])`. -/
def isSentEnd (c : Char) : Bool := c = '.' || c = '!' || c = '?'

/-- First index `i ≥ start` whose character satisfies `isSentEnd`. -/
def findSentEnd : Text → Nat → Option Nat
  | t, start =>
    match (t.drop start).findIdx? (fun c => isSentEnd c) with
    | none => none
    | some i => some (start + i)

/-- The `for match in sentence_endings.finditer(text)` loop with the final
leftover-text step, fuelled by remaining length. -/
def sentencesAux (t : Text) : Nat → Nat → List (Text × Nat × Nat)
  | 0, _ => []
  | fuel + 1, start =>
    match findSentEnd t start with
    | some p =>
      let s := pyStrip (pySlice t start (p + 1))
      if s = [] then sentencesAux t fuel (p + 1)
      else (s, start, p + 1) :: sentencesAux t fuel (p + 1)
    | none =>
      if start < t.length then
        let s := pyStrip (t.drop start)
        if s = [] then [] else [(s, start, t.length)]
      else []

/-- Step 2 of `count_personal_pronouns`: sentences with their raw spans. -/
def sentencesOf (t : Text) : List (Text × Nat × Nat) :=
  sentencesAux t (t.length + 1) 0

/-!
## Pronoun matching

`re.finditer(r'\b(I|me|my|mine|myself)\b', text, re.IGNORECASE)`:
at each position with a word boundary before it, the alternatives are tried
in order, each requiring a word boundary after the candidate; matching is
case-insensitive and the matched slice keeps its original case.
-/

/-- Case-insensitive literal prefix match (`pat` given in lowercase). -/
def lowPref : Text → Text → Bool
  | [], _ => true
  | _ :: _, [] => false
  | p :: ps, c :: cs => c.toLower = p && lowPref ps cs

/-- One alternative of the pronoun alternation: case-insensitive match of
`pat` at the head of `rem` followed by a word boundary. -/
def tryOnePron (pat : Text) (rem : Text) : Option (Nat × Text) :=
  if lowPref pat rem then
    match rem.drop pat.length with
    | [] => some (pat.length, rem.take pat.length)
    | c :: _ => if isWordChar c then none else some (pat.length, rem.take pat.length)
  else none

/-- The alternation `I|me|my|mine|myself` in the regex's order. -/
def tryPron (rem : Text) : Option (Nat × Text) :=
  (tryOnePron ['i'] rem).orElse fun _ =>
  (tryOnePron ['m', 'e'] rem).orElse fun _ =>
  (tryOnePron ['m', 'y'] rem).orElse fun _ =>
  (tryOnePron ['m', 'i', 'n', 'e'] rem).orElse fun _ =>
  tryOnePron ['m', 'y', 's', 'e', 'l', 'f'] rem

/-- `finditer` over the text: `prev` is the character before the scan
position (for the leading `\b`), `i` the current offset. -/
def pronScan : Option Char → Nat → Text → Nat → List (Nat × Text)
  | _, _, _, 0 => []
  | _, _, [], _ => []
  | prev, i, rem@(c :: rest), fuel + 1 =>
    let boundary := match prev with
      | none => true
      | some p => !isWordChar p
    if boundary then
      match tryPron rem with
      | some (len, matched) =>
        (i, matched) :: pronScan (matched.getLast?) (i + len) (rem.drop len) fuel
      | none => pronScan (some c) (i + 1) rest fuel
    else pronScan (some c) (i + 1) rest fuel

/-- All raw pronoun matches `(offset, matched text)` of the text. -/
def pronMatches (t : Text) : List (Nat × Text) :=
  pronScan none 0 t (t.length + 1)

/-- The `PronounReport` dict returned by `count_personal_pronouns`. -/
structure PronounReport where
  count : Nat
  foundPronouns : List Text
  quotedRegions : List (Nat × Nat)
  sentencesWithPronouns : List Text
  flag : Bool
  deriving DecidableEq

/-- Step 4: attribute each surviving match to the first sentence whose span
contains its offset, recording each sentence text at most once. -/
def attachSentences (sents : List (Text × Nat × Nat)) :
    List (Nat × Text) → List Text → List Text
  | [], acc => acc
  | (pos, _) :: more, acc =>
    match sents.find? (fun s => s.2.1 ≤ pos && pos < s.2.2) with
    | some s => if s.1 ∈ acc then attachSentences sents more acc
                else attachSentences sents more (acc ++ [s.1])
    | none => attachSentences sents more acc

/-- `count_personal_pronouns` of src/make_analysis.py lines 656-744. -/
def countPersonalPronouns (t : Text) : PronounReport :=
  let quotes := findQuotes maQuotePairs t
  let sents := sentencesOf t
  let surviving := (pronMatches t).filter (fun m => !inQuotes quotes m.1)
  { count := surviving.length
    foundPronouns := surviving.map (·.2)
    quotedRegions := quotes
    sentencesWithPronouns := attachSentences sents surviving []
    flag := decide (0 < surviving.length) }

/-- The example text of the specification:
`She said "I love this" but I disagree.` -/
def exText : Text :=
  "She said ".toList ++ [dqChar] ++ "I love this".toList ++ [dqChar] ++
    " but I disagree.".toList

/-!
## A model of `json.loads`

`clean_content` (src/helper.py lines 3-38) first tries `json.loads` on its
input.  The stdlib parser is modelled closely enough for the developments
here: values are null / booleans / integers / floats / strings / arrays /
objects, with JSON whitespace, string escapes, strict rejection of raw
control characters in strings, and whole-input consumption.  Floats are
recognised but carry no payload (no claim depends on their value).
-/

inductive PyValue where
  | jnull : PyValue
  | jbool : Bool → PyValue
  | jint : Int → PyValue
  | jfloat : PyValue
  | jstr : Text → PyValue
  | jarr : List PyValue → PyValue
  | jobj : List (Text × PyValue) → PyValue

/-- JSON inter-token whitespace. -/
def jsonWs (c : Char) : Bool :=
  c = ' ' || c = tabChar || c = nlChar || c = crChar

/-- Hexadecimal digit value. -/
def hexVal (c : Char) : Option Nat :=
  if c.isDigit then some (c.toNat - 48)
  else if 'a' ≤ c && c ≤ 'f' then some (c.toNat - 87)
  else if 'A' ≤ c && c ≤ 'F' then some (c.toNat - 70)
  else none

/-- Body of a JSON string after the opening quote; returns the decoded text
and the remainder after the closing quote.  Raw control characters are
rejected (`strict=True` of `json.loads`). -/
def parseStrBody : Nat → Text → Option (Text × Text)
  | 0, _ => none
  | _ + 1, [] => none
  | fuel + 1, c :: rest =>
    if c = dqChar then some ([], rest)
    else if c = '\\' then
      match rest with
      | [] => none
      | e :: rest2 =>
        let dec : Option (Char × Text) :=
          if e = dqChar then some (dqChar, rest2)
          else if e = '\\' then some ('\\', rest2)
          else if e = '/' then some ('/', rest2)
          else if e = 'n' then some (nlChar, rest2)
          else if e = 't' then some (tabChar, rest2)
          else if e = 'r' then some (crChar, rest2)
          else if e = 'b' then some (Char.ofNat 8, rest2)
          else if e = 'f' then some (ffChar, rest2)
          else if e = 'u' then
            match rest2 with
            | h1 :: h2 :: h3 :: h4 :: rest3 =>
              match hexVal h1, hexVal h2, hexVal h3, hexVal h4 with
              | some a, some b, some c₁, some d =>
                some (Char.ofNat (((a * 16 + b) * 16 + c₁) * 16 + d), rest3)
              | _, _, _, _ => none
            | _ => none
          else none
        match dec with
        | none => none
        | some (ch, r) =>
          match parseStrBody fuel r with
          | none => none
          | some (s, r') => some (ch :: s, r')
    else if c.toNat < 32 then none
    else
      match parseStrBody fuel rest with
      | none => none
      | some (s, r') => some (c :: s, r')

/-- Digits of a JSON integer part (`0` or a nonzero digit followed by
digits). -/
def parseDigits (t : Text) : Option (Nat × Text) :=
  match t.takeWhile Char.isDigit with
  | [] => none
  | d :: ds =>
    if d = '0' && ds ≠ [] then none
    else some ((d :: ds).foldl (fun n c => n * 10 + (c.toNat - 48)) 0,
               t.dropWhile Char.isDigit)

/-- A JSON number after an optional leading minus sign: an integer, or a
float when a fraction or exponent part follows. -/
def parseNum (neg : Bool) (t : Text) : Option (PyValue × Text) :=
  match parseDigits t with
  | none => none
  | some (n, rest) =>
    match rest with
    | c :: more =>
      if c = '.' then
        match more.takeWhile Char.isDigit with
        | [] => none
        | _ :: _ =>
          let rest2 := more.dropWhile Char.isDigit
          match rest2 with
          | e :: more2 =>
            if e = 'e' || e = 'E' then
              match parseExp more2 with
              | none => none
              | some r => some (PyValue.jfloat, r)
            else some (PyValue.jfloat, rest2)
          | [] => some (PyValue.jfloat, [])
      else if c = 'e' || c = 'E' then
        match parseExp more with
        | none => none
        | some r => some (PyValue.jfloat, r)
      else some (PyValue.jint (if neg then -(n : Int) else (n : Int)), rest)
    | [] => some (PyValue.jint (if neg then -(n : Int) else (n : Int)), [])
where
  /-- Exponent digits after `e`/`E`, with optional sign. -/
  parseExp (t : Text) : Option Text :=
    let t' := match t with
      | s :: r => if s = '+' || s = '-' then r else t
      | [] => t
    match t'.takeWhile Char.isDigit with
    | [] => none
    | _ :: _ => some (t'.dropWhile Char.isDigit)

mutual

/-- A JSON value with leading whitespace. -/
def parseVal : Nat → Text → Option (PyValue × Text)
  | 0, _ => none
  | fuel + 1, t =>
    match t.dropWhile jsonWs with
    | [] => none
    | c :: rest =>
      if c = dqChar then
        match parseStrBody (rest.length + 1) rest with
        | none => none
        | some (s, r) => some (PyValue.jstr s, r)
      else if c = '{' then parseObj fuel rest true
      else if c = '[' then parseArr fuel rest true
      else if c = '-' then parseNum true rest
      else if c.isDigit then parseNum false (c :: rest)
      else if leadsWith "null".toList (c :: rest) then
        some (PyValue.jnull, (c :: rest).drop 4)
      else if leadsWith "true".toList (c :: rest) then
        some (PyValue.jbool true, (c :: rest).drop 4)
      else if leadsWith "false".toList (c :: rest) then
        some (PyValue.jbool false, (c :: rest).drop 5)
      else none

/-- Object members after `{` (`first` marks that no member was read yet). -/
def parseObj : Nat → Text → Bool → Option (PyValue × Text)
  | 0, _, _ => none
  | fuel + 1, t, first =>
    match t.dropWhile jsonWs with
    | [] => none
    | c :: rest =>
      if c = '}' && first then some (PyValue.jobj [], rest)
      else
        match parseMembers fuel (c :: rest) [] with
        | none => none
        | some (m, r) => some (PyValue.jobj m, r)

/-- A nonempty member list `"key": value (, "key": value)* }`. -/
def parseMembers : Nat → Text → List (Text × PyValue) →
    Option (List (Text × PyValue) × Text)
  | 0, _, _ => none
  | fuel + 1, t, acc =>
    match t.dropWhile jsonWs with
    | [] => none
    | c :: rest =>
      if c = dqChar then
        match parseStrBody (rest.length + 1) rest with
        | none => none
        | some (k, r) =>
          match r.dropWhile jsonWs with
          | colon :: r2 =>
            if colon = ':' then
              match parseVal fuel r2 with
              | none => none
              | some (v, r3) =>
                match r3.dropWhile jsonWs with
                | sep :: r4 =>
                  if sep = ',' then parseMembers fuel r4 (acc ++ [(k, v)])
                  else if sep = '}' then some (acc ++ [(k, v)], r4)
                  else none
                | [] => none
            else none
          | [] => none
      else none

/-- Array items after `[`. -/
def parseArr : Nat → Text → Bool → Option (PyValue × Text)
  | 0, _, _ => none
  | fuel + 1, t, first =>
    match t.dropWhile jsonWs with
    | [] => none
    | c :: rest =>
      if c = ']' && first then some (PyValue.jarr [], rest)
      else
        match parseItems fuel (c :: rest) [] with
        | none => none
        | some (l, r) => some (PyValue.jarr l, r)

/-- A nonempty item list `value (, value)* ]`. -/
def parseItems : Nat → Text → List PyValue → Option (List PyValue × Text)
  | 0, _, _ => none
  | fuel + 1, t, acc =>
    match parseVal fuel t with
    | none => none
    | some (v, r) =>
      match r.dropWhile jsonWs with
      | sep :: r2 =>
        if sep = ',' then parseItems fuel r2 (acc ++ [v])
        else if sep = ']' then some (acc ++ [v], r2)
        else none
      | [] => none

end

/-- `json.loads`: parse a full document, requiring only whitespace after the
value; `none` models a raised `json.JSONDecodeError`. -/
def jsonLoads (t : Text) : Option PyValue :=
  match parseVal (t.length + 1) t with
  | none => none
  | some (v, rest) => if rest.dropWhile jsonWs = [] then some v else none

/-- `data.get("content", "")` on a parsed JSON object: the value of the last
binding of the key (Python dicts keep the last duplicate), defaulting to the
empty string. -/
def objGet (m : List (Text × PyValue)) (k : Text) : PyValue :=
  match m.reverse.find? (fun p => p.1 = k) with
  | some p => p.2
  | none => PyValue.jstr []

/-!
## `clean_content` (src/helper.py lines 3-38, duplicated at
src/modular/article_processor.py lines 11-46)

The cleaning pipeline applies, in order:
`re.sub` of `\[CONTENT IMAGE:.*?\]` → empty, `Source:\s*https?://\S+` →
empty, `H2:\s*` → `## `, `\n{3,}` → two newlines, `\n\s*\n` → two newlines,
`[ \t]+` → one space, `\[.*?\]` → empty, then `str.strip()`.
Each substitution is a fuelled left-to-right scanner; the wrappers supply
`length + 1` fuel, which is sufficient because every step consumes at least
one input character.
-/

/-- Lazy `.*?\]` tail of a bracket match: the text after the first `]`,
failing at a newline (`.` does not match newlines) or end of input. -/
def scanToClose : Text → Option Text
  | [] => none
  | c :: rest =>
    if c = ']' then some rest
    else if c = nlChar then none
    else scanToClose rest

/-- The literal between `[` and the lazy tail in the image-marker pattern. -/
def imageLit : Text := "CONTENT IMAGE:".toList

/-- A match of `\[CONTENT IMAGE:.*?\]` starting at a `[` whose tail is
`rest`; returns the remainder after the match. -/
def matchImage (rest : Text) : Option Text :=
  if leadsWith imageLit rest then scanToClose (rest.drop imageLit.length)
  else none

/-- `re.sub(r'\[CONTENT IMAGE:.*?\]', '', t)`. -/
def imageSubF : Nat → Text → Text
  | 0, t => t
  | _ + 1, [] => []
  | fuel + 1, c :: rest =>
    if c = '[' then
      match matchImage rest with
      | some rem => imageSubF fuel rem
      | none => c :: imageSubF fuel rest
    else c :: imageSubF fuel rest

/-- A match of `Source:\s*https?://\S+` starting at the head of `t`;
returns the remainder after the maximal `\S+` run. -/
def matchSource (t : Text) : Option Text :=
  if leadsWith "Source:".toList t then
    let afterWs := (t.drop 7).dropWhile pySpace
    let afterScheme : Option Text :=
      if leadsWith "https://".toList afterWs then some (afterWs.drop 8)
      else if leadsWith "http://".toList afterWs then some (afterWs.drop 7)
      else none
    match afterScheme with
    | none => none
    | some u =>
      match u.takeWhile (fun c => !pySpace c) with
      | [] => none
      | _ :: _ => some (u.dropWhile (fun c => !pySpace c))
  else none

/-- `re.sub(r'Source:\s*https?://\S+', '', t)`. -/
def sourceSubF : Nat → Text → Text
  | 0, t => t
  | _ + 1, [] => []
  | fuel + 1, c :: rest =>
    match matchSource (c :: rest) with
    | some rem => sourceSubF fuel rem
    | none => c :: sourceSubF fuel rest

/-- `re.sub(r'H2:\s*', '## ', t)`. -/
def h2SubF : Nat → Text → Text
  | 0, t => t
  | _ + 1, [] => []
  | fuel + 1, c :: rest =>
    if leadsWith "H2:".toList (c :: rest) then
      '#' :: '#' :: ' ' :: h2SubF fuel ((rest.drop 2).dropWhile pySpace)
    else c :: h2SubF fuel rest

/-- `re.sub(r'\n{3,}', '\n\n', t)`: a maximal newline run of length at least
three collapses to two; shorter runs pass through. -/
def nl3SubF : Nat → Text → Text
  | 0, t => t
  | _ + 1, [] => []
  | fuel + 1, c :: rest =>
    if c = nlChar then
      let run := rest.takeWhile (fun d => d = nlChar)
      if 2 ≤ run.length then
        nlChar :: nlChar :: nl3SubF fuel (rest.drop run.length)
      else (c :: run) ++ nl3SubF fuel (rest.drop run.length)
    else c :: nl3SubF fuel rest

/-- Index of the last newline in a list, if any. -/
def lastNlIdx : Text → Option Nat
  | [] => none
  | c :: rest =>
    match lastNlIdx rest with
    | some k => some (k + 1)
    | none => if c = nlChar then some 0 else none

/-- `re.sub(r'\n\s*\n', '\n\n', t)`: at a newline, the greedy `\s*`
backtracks to the last newline of the following whitespace run; the match is
replaced by two newlines and scanning resumes after it. -/
def nlwsSubF : Nat → Text → Text
  | 0, t => t
  | _ + 1, [] => []
  | fuel + 1, c :: rest =>
    if c = nlChar then
      match lastNlIdx (rest.takeWhile pySpace) with
      | some k => nlChar :: nlChar :: nlwsSubF fuel (rest.drop (k + 1))
      | none => c :: nlwsSubF fuel rest
    else c :: nlwsSubF fuel rest

/-- `re.sub(r'[ \t]+', ' ', t)`. -/
def spacesSubF : Nat → Text → Text
  | 0, t => t
  | _ + 1, [] => []
  | fuel + 1, c :: rest =>
    if c = ' ' || c = tabChar then
      ' ' :: spacesSubF fuel (rest.dropWhile (fun d => d = ' ' || d = tabChar))
    else c :: spacesSubF fuel rest

/-- `re.sub(r'\[.*?\]', '', t)`: a `[` with a `]` later on the same line
opens a match removed up to that first `]`. -/
def bracketSubF : Nat → Text → Text
  | 0, t => t
  | _ + 1, [] => []
  | fuel + 1, c :: rest =>
    if c = '[' then
      match scanToClose rest with
      | some rem => bracketSubF fuel rem
      | none => c :: bracketSubF fuel rest
    else c :: bracketSubF fuel rest

/-- The cleaning transformations of `clean_content` in source order. -/
def cleanPipeline (t : Text) : Text :=
  let t1 := imageSubF (t.length + 1) t
  let t2 := sourceSubF (t1.length + 1) t1
  let t3 := h2SubF (t2.length + 1) t2
  let t4 := nl3SubF (t3.length + 1) t3
  let t5 := nlwsSubF (t4.length + 1) t4
  let t6 := spacesSubF (t5.length + 1) t5
  let t7 := bracketSubF (t6.length + 1) t6
  pyStrip t7

/-- The string check on the selected `content` value: a non-string value
reaches `re.sub` and raises `TypeError` (modelled as `none`). -/
def contentOf : PyValue → Option Text
  | PyValue.jstr s => some s
  | _ => none

/-- The `content` key. -/
def contentKey : Text := "content".toList

/-- The branch of `clean_content` after a successful `json.loads`: a JSON
object yields its `content` field (default empty string); any other value
raises `AttributeError` at `data.get` (modelled as `none`). -/
def cleanFromJson : PyValue → Option Text
  | PyValue.jobj m => (contentOf (objGet m contentKey)).map cleanPipeline
  | _ => none

/-- `clean_content`: `json.loads` is attempted first; on success the parsed
value is handled by `cleanFromJson`, and a parse failure
(`json.JSONDecodeError`) falls back to treating the whole input as raw
content, on which the cleaning transformations run. -/
def cleanContent (input : Text) : Option Text :=
  match jsonLoads input with
  | some v => cleanFromJson v
  | none => some (cleanPipeline input)

/-!
## `CostTracker` (src/ai_analysis.py lines 15-31, duplicated at
src/depr/ai_analysis.py lines 17-35)

`decimal.Decimal` arithmetic on these operands is exact; it is embedded as
exact rational arithmetic.  `add_usage` hardcodes the per-million rates
`Decimal('3.00')` and `Decimal('15.00')`.
-/

structure CostTracker where
  cost : ℚ
  inputTokens : ℕ
  outputTokens : ℕ
  deriving DecidableEq

/-- `CostTracker.__init__`. -/
def CostTracker.init : CostTracker := ⟨0, 0, 0⟩

/-- `CostTracker.reset` (delegates to `__init__`). -/
def CostTracker.reset (_ : CostTracker) : CostTracker := CostTracker.init

/-- `CostTracker.add_usage`. -/
def CostTracker.addUsage (t : CostTracker) (i o : ℕ) : CostTracker :=
  let inputCost : ℚ := ((i : ℚ) / 1000000) * 3
  let outputCost : ℚ := ((o : ℚ) / 1000000) * 15
  { cost := t.cost + (inputCost + outputCost)
    inputTokens := t.inputTokens + i
    outputTokens := t.outputTokens + o }

/-!
## `make_api_call` (src/ai_analysis.py lines 35-64)

The external service is abstracted as an oracle giving each attempt's
outcome: the token-count request raises, the message-create request raises,
or a reply text is produced.  Inside the `try` block a produced reply is
parsed with `json.loads` and returned on success.  The `except` block first
runs `print(json.loads(response.content[0].text))`: when `response` was
never assigned in this call that raises `UnboundLocalError`, and when the
reply text failed to parse the re-parse raises `JSONDecodeError` again;
only if the print succeeds does the retry bookkeeping run (returning `None`
once `retries > max_retries`, else looping).  `Except.error` models an
exception propagating to the caller; `Except.ok none` models the implicit
`None` of falling off the loop, `Except.ok (some v)` a parsed reply.
-/

inductive ApiOutcome where
  | countTokensFail : ApiOutcome
  | createFail : ApiOutcome
  | okResponse : Text → ApiOutcome

inductive PyExc where
  | unboundLocalError : PyExc
  | jsonDecodeError : PyExc
  deriving DecidableEq

/-- The `except Exception as e` handler of `make_api_call`. -/
def apiHandler (maxRetries retries : Nat) (response : Option Text)
    (k : Nat → Except PyExc (Option PyValue)) : Except PyExc (Option PyValue) :=
  let r := retries + 1
  match response with
  | none => Except.error PyExc.unboundLocalError
  | some t =>
    match jsonLoads t with
    | none => Except.error PyExc.jsonDecodeError
    | some _ => if r > maxRetries then Except.ok none else k r

/-- The `while retries <= max_retries` loop; `attempt` numbers the oracle
calls and `response` is the Python local carried across iterations. -/
def apiLoop (oracle : Nat → ApiOutcome) (maxRetries : Nat) :
    Nat → Nat → Nat → Option Text → Except PyExc (Option PyValue)
  | 0, _, _, _ => Except.ok none
  | fuel + 1, retries, attempt, response =>
    if retries > maxRetries then Except.ok none
    else
      match oracle attempt with
      | ApiOutcome.countTokensFail =>
        apiHandler maxRetries retries response
          (fun r => apiLoop oracle maxRetries fuel r (attempt + 1) response)
      | ApiOutcome.createFail =>
        apiHandler maxRetries retries response
          (fun r => apiLoop oracle maxRetries fuel r (attempt + 1) response)
      | ApiOutcome.okResponse t =>
        match jsonLoads t with
        | some v => Except.ok (some v)
        | none =>
          apiHandler maxRetries retries (some t)
            (fun r => apiLoop oracle maxRetries fuel r (attempt + 1) (some t))

/-- `make_api_call(..., max_retries)` under the outcome oracle. -/
def makeApiCall (oracle : Nat → ApiOutcome) (maxRetries : Nat) :
    Except PyExc (Option PyValue) :=
  apiLoop oracle maxRetries (maxRetries + 2) 0 0 none

/-!
## `BlogAnalyzer.analyze_content`, categorization axis
(src/ai.py lines 226-249)

Only the validation of the reply text is modelled (the network call is the
external collaborator).  `self.categories` is the externally configured
list (imported from a config module not present in the repository), so it
is a parameter.  The `str(e)` detail interpolated into the JSON-parse and
outer-exception messages is modelled as empty.
-/

structure AnalysisResult where
  success : Bool
  result : Option Text
  error : Option Text
  deriving DecidableEq

/-- `f"Invalid category returned: {value}"` for a string category value. -/
def invalidCategoryMsg (c : Text) : Text :=
  "Invalid category returned: ".toList ++ c

/-- `f"Invalid JSON response format: {str(e)}"` (detail omitted). -/
def invalidJsonMsg : Text := "Invalid JSON response format: ".toList

/-- `"Response missing 'category' field"`. -/
def missingCategoryMsg : Text :=
  "Response missing ".toList ++ [sqChar] ++ "category".toList ++ [sqChar] ++
    " field".toList

/-- `f"Analysis failed: {str(e)}"` of the outer handler (detail omitted). -/
def analysisFailedMsg : Text := "Analysis failed: ".toList

/-- `result_json["category"]` on a dict (last duplicate wins). -/
def dictItem (m : List (Text × PyValue)) (k : Text) : Option PyValue :=
  match m.reverse.find? (fun p => p.1 = k) with
  | some p => some p.2
  | none => none

/-- Substring test mirroring Python's `in` on strings. -/
def containsSub : Text → Text → Bool
  | _, [] => false
  | pat, t@(_ :: rest) => leadsWith pat t || containsSub pat rest

/-- `"category"`. -/
def categoryKey : Text := "category".toList

/-- Python `value in categories` for a configured list of strings: `in`
compares with `==`, which is `False` between a non-string value and a
string, so only an equal string value is a member and no value raises. -/
def pyValueIn (v : PyValue) (categories : List Text) : Bool :=
  match v with
  | PyValue.jstr s => s ∈ categories
  | _ => false

mutual

/-- Python `repr` of a parsed JSON value, used by `str` inside containers:
strings are quoted with single quotes (escaping and the double-quote
fallback are not modelled), integers render in decimal, and booleans and
null use their Python names.  A float's `str` rendering is floating-point
formatting, which is outside this model. -/
def pyRepr : PyValue → Text
  | PyValue.jnull => "None".toList
  | PyValue.jbool true => "True".toList
  | PyValue.jbool false => "False".toList
  | PyValue.jint n => (Int.repr n).toList
  | PyValue.jfloat => "float".toList
  | PyValue.jstr s => sqChar :: s ++ [sqChar]
  | PyValue.jarr l => '[' :: pyReprList l ++ [']']
  | PyValue.jobj m => lbChar :: pyReprPairs m ++ [rbChar]

/-- Comma-separated `repr`s of list elements. -/
def pyReprList : List PyValue → Text
  | [] => []
  | [v] => pyRepr v
  | v :: rest => pyRepr v ++ ", ".toList ++ pyReprList rest

/-- Comma-separated `repr(key): repr(value)` pairs of a dict. -/
def pyReprPairs : List (Text × PyValue) → Text
  | [] => []
  | [(k, v)] => (sqChar :: k ++ [sqChar]) ++ ": ".toList ++ pyRepr v
  | (k, v) :: rest =>
    (sqChar :: k ++ [sqChar]) ++ ": ".toList ++ pyRepr v ++ ", ".toList ++
      pyReprPairs rest

end

/-- Python `str` as used by the f-string `f"Invalid category returned:
{result_json['category']}"`: a string renders as itself, any other value
as its `repr`. -/
def pyStr : PyValue → Text
  | PyValue.jstr s => s
  | v => pyRepr v

/-- Validation of a parsed categorization reply.  A JSON object without a
`category` key yields the missing-field failure; otherwise the value is
tested for membership of `categories` with Python `in` semantics
(`pyValueIn` — never raising, `False` for every non-string value), a
member succeeding and a non-member yielding `Invalid category returned:`
followed by the value's `str` rendering.  Non-dict JSON values make the
key test or the subscript raise `TypeError`, caught by the outer handler
(a string reply first runs a substring test, a list reply a
list-membership test, as `in` does). -/
def categorizeValue (categories : List Text) (reply : Text) :
    PyValue → AnalysisResult
  | PyValue.jobj m =>
    match dictItem m categoryKey with
    | none => ⟨false, some reply, some missingCategoryMsg⟩
    | some v =>
      if pyValueIn v categories then ⟨true, some reply, none⟩
      else ⟨false, some reply, some (invalidCategoryMsg (pyStr v))⟩
  | PyValue.jstr s =>
    if !(containsSub categoryKey s) then
      ⟨false, some reply, some missingCategoryMsg⟩
    else ⟨false, some analysisFailedMsg, some analysisFailedMsg⟩
  | PyValue.jarr l =>
    if !(l.any (fun v => match v with
        | PyValue.jstr s => s = categoryKey
        | _ => false)) then
      ⟨false, some reply, some missingCategoryMsg⟩
    else ⟨false, some analysisFailedMsg, some analysisFailedMsg⟩
  | _ => ⟨false, some analysisFailedMsg, some analysisFailedMsg⟩

/-- The categorization branch of `analyze_content` applied to the reply
text: `json.JSONDecodeError` yields the JSON-format failure, a parsed
value is validated by `categorizeValue`. -/
def analyzeContentCategorize (categories : List Text) (reply : Text) :
    AnalysisResult :=
  match jsonLoads reply with
  | none => ⟨false, some reply, some invalidJsonMsg⟩
  | some v => categorizeValue categories reply v

/-!
## `generate_unique_id` (src/clean_analysis.py lines 11-16)

`urllib.parse.urlparse` is modelled for its `netloc` and `path` components:
the fragment is split at the first `#`, a scheme prefix (a letter followed
by letters, digits, `+`, `-`, `.` before a `:`) is removed, `//` introduces
the netloc up to the next `/` or `?`, and the path ends at the first `?`.
-/

/-- Characters permitted in a URL scheme. -/
def schemeChar (c : Char) : Bool :=
  c.isAlphanum || c = '+' || c = '-' || c = '.'

/-- Fragment removal: everything before the first `#`. -/
def splitFragment (u : Text) : Text := u.takeWhile (fun c => c ≠ '#')

/-- Head of a list is a letter. -/
def headAlpha : Text → Bool
  | [] => false
  | c :: _ => c.isAlpha

/-- Scheme removal: when a `:` occurs and the text before the first one is
a valid scheme (a letter, then scheme characters), everything after that
colon; otherwise the input unchanged. -/
def stripScheme (u : Text) : Text :=
  let pre := u.takeWhile (fun c => c ≠ ':')
  if pre.length < u.length then
    if headAlpha pre && pre.all schemeChar then u.drop (pre.length + 1)
    else u
  else u

/-- Netloc/remainder split: after a leading `//` the netloc runs to the
next `/` or `?`; otherwise the netloc is empty. -/
def netlocRest (u : Text) : Text × Text :=
  match u with
  | c1 :: c2 :: r =>
    if c1 = '/' && c2 = '/' then
      (r.takeWhile (fun c => c ≠ '/' && c ≠ '?'),
       r.dropWhile (fun c => c ≠ '/' && c ≠ '?'))
    else ([], u)
  | _ => ([], u)

/-- `urlparse(url).netloc`. -/
def urlNetloc (url : Text) : Text :=
  (netlocRest (stripScheme (splitFragment url))).1

/-- `urlparse(url).path` (up to the first `?`). -/
def urlPath (url : Text) : Text :=
  (netlocRest (stripScheme (splitFragment url))).2.takeWhile (fun c => c ≠ '?')

/-- `generate_unique_id`: lowercase `netloc + path` and keep only
alphanumeric characters. -/
def generateUniqueId (url : Text) : Text :=
  ((urlNetloc url ++ urlPath url).map Char.toLower).filter Char.isAlphanum

/-- The specification's wording for the unique id: "lowercased host+path
with non-alphanumeric characters stripped", stated independently of the
implementation. -/
def specUniqueId (url : Text) : Text :=
  let hostAndPath := urlNetloc url ++ urlPath url
  let lowered := hostAndPath.map Char.toLower
  lowered.filter Char.isAlphanum

/-!
## Normal-form predicates for the cleaned text

`hasPair` detects a `[` closed by a `]` later on the same line (a match of
`\[.*?\]`); the remaining predicates detect text on which some cleaning
transformation is not the identity.  They are used to characterise outputs
on which a second `clean_content` application acts trivially.
-/

/-- Some `[` is closed on its own line (a `\[.*?\]` match exists). -/
def hasPair : Text → Bool
  | [] => false
  | c :: rest => (c = '[' && (scanToClose rest).isSome) || hasPair rest

/-- A `Source:\s*https?://\S+` match exists. -/
def hasSource : Text → Bool
  | [] => false
  | c :: rest => (matchSource (c :: rest)).isSome || hasSource rest

/-- An `H2:` occurrence exists. -/
def hasH2 : Text → Bool
  | [] => false
  | c :: rest => leadsWith "H2:".toList (c :: rest) || hasH2 rest

/-- Head condition of `okNl`: a newline's following whitespace run has its
last newline, if any, immediately adjacent. -/
def okNlCond (c : Char) (rest : Text) : Bool :=
  if c = nlChar then
    match lastNlIdx (rest.takeWhile pySpace) with
    | none => true
    | some k => k = 0
  else true

/-- Every newline is followed by a whitespace run whose last newline, if
any, is immediate: every `\n\s*\n` match is exactly two newlines (and no
run of three or more newlines exists). -/
def okNl : Text → Bool
  | [] => true
  | c :: rest => okNlCond c rest && okNl rest

/-- No tab, and no two adjacent space/tab characters: `[ \t]+` collapsing
is the identity. -/
def okSp : Text → Bool
  | [] => true
  | [c] => c ≠ tabChar
  | c :: d :: rest =>
    c ≠ tabChar && !(c = ' ' && (d = ' ' || d = tabChar)) && okSp (d :: rest)

/-- First character, if any, is not whitespace. -/
def beginsOk : Text → Bool
  | [] => true
  | c :: _ => !pySpace c

/-- Last character, if any, is not whitespace. -/
def endsOk : Text → Bool
  | [] => true
  | [c] => !pySpace c
  | _ :: rest => endsOk rest

/-- The cleaned normal form: no bracket pair on a line, no source-URL or
`H2:` marker, newline and space runs already collapsed, no surrounding
whitespace, and not parseable as JSON. -/
def normalForm (t : Text) : Bool :=
  !hasPair t && !hasSource t && !hasH2 t && okNl t && okSp t &&
    beginsOk t && endsOk t && (jsonLoads t).isNone

/-!
## Properties of the quote-region scan
-/

lemma findIdxAux_spec (c : Char) :
    ∀ (xs : Text) (i j : Nat), findIdxAux xs c i = some j →
      i ≤ j ∧ j - i < xs.length ∧ xs.get? (j - i) = some c := by
  intro xs
  induction xs with
  | nil => intro i j h; simp [findIdxAux] at h
  | cons x xs ih =>
    intro i j h
    by_cases hx : x = c
    · simp [findIdxAux, hx] at h
      subst h
      simp [hx]
    · simp [findIdxAux, hx] at h
      obtain ⟨h1, h2, h3⟩ := ih (i + 1) j h
      refine ⟨by omega, by simpa using by omega, ?_⟩
      have hji : j - i = (j - (i + 1)) + 1 := by omega
      rw [hji]
      simpa using h3

lemma findFrom_spec {t : Text} {c : Char} {s i : Nat}
    (h : findFrom t c s = some i) :
    s ≤ i ∧ i < t.length ∧ t.get? i = some c := by
  obtain ⟨h1, h2, h3⟩ := findIdxAux_spec c (t.drop s) s i h
  rw [List.get?_drop] at h3
  have hlen : (t.drop s).length = t.length - s := List.length_drop s t
  refine ⟨h1, by omega, ?_⟩
  have : s + (i - s) = i := by omega
  rwa [this] at h3

lemma nextOpen_spec :
    ∀ (pairs : List (Char × Char)) (t : Text) (pos s : Nat) (cl : Char),
      nextOpen pairs t pos = some (s, cl) →
      pos ≤ s ∧ s < t.length ∧
        ∃ o, (o, cl) ∈ pairs ∧ t.get? s = some o := by
  intro pairs
  induction pairs with
  | nil => intro t pos s cl h; simp [nextOpen] at h
  | cons oc rest ih =>
    intro t pos s cl h
    unfold nextOpen at h
    cases hf : findFrom t oc.1 pos with
    | none =>
      rw [hf] at h
      obtain ⟨h1, h2, o, ho, hg⟩ := ih t pos s cl h
      exact ⟨h1, h2, o, List.mem_cons_of_mem _ ho, hg⟩
    | some p =>
      rw [hf] at h
      cases hn : nextOpen rest t pos with
      | none =>
        rw [hn] at h
        simp at h
        obtain ⟨hp, hcl⟩ := h
        subst hp; subst hcl
        obtain ⟨h1, h2, h3⟩ := findFrom_spec hf
        exact ⟨h1, h2, oc.1, by simp, h3⟩
      | some qc =>
        rw [hn] at h
        by_cases hpq : p ≤ qc.1
        · simp [hpq] at h
          obtain ⟨hp, hcl⟩ := h
          subst hp; subst hcl
          obtain ⟨h1, h2, h3⟩ := findFrom_spec hf
          exact ⟨h1, h2, oc.1, by simp, h3⟩
        · simp [hpq] at h
          obtain ⟨h1, h2, o, ho, hg⟩ := ih t pos qc.1 qc.2 (by rw [hn])
          subst h
          exact ⟨h1, h2, o, List.mem_cons_of_mem _ ho, hg⟩

/-- Every region recorded by the scan lies within the text, starts at an
opening quote of the pair list, and ends at the matching closer or at the
final character (unbalanced case); regions start at or after the scan
position. -/
lemma quoteStep_mem (pairs : List (Char × Char)) (t : Text) :
    ∀ (fuel pos : Nat) (r : Nat × Nat), r ∈ quoteStep pairs t fuel pos →
      pos ≤ r.1 ∧ r.1 ≤ r.2 ∧ r.2 < t.length ∧
        ∃ p, p ∈ pairs ∧ t.get? r.1 = some p.1 ∧
          (t.get? r.2 = some p.2 ∨ r.2 = t.length - 1) := by
  intro fuel
  induction fuel with
  | zero => intro pos r h; simp [quoteStep] at h
  | succ fuel ih =>
    intro pos r h
    unfold quoteStep at h
    cases hn : nextOpen pairs t pos with
    | none => rw [hn] at h; simp at h
    | some sc =>
      rw [hn] at h
      obtain ⟨hpos, hlt, o, ho, hg⟩ := nextOpen_spec pairs t pos sc.1 sc.2 (by rw [hn])
      have he : sc.1 ≤ (findFrom t sc.2 (sc.1 + 1)).getD (t.length - 1) ∧
          (findFrom t sc.2 (sc.1 + 1)).getD (t.length - 1) < t.length := by
        cases hf : findFrom t sc.2 (sc.1 + 1) with
        | some j =>
          obtain ⟨hj1, hj2, _⟩ := findFrom_spec hf
          simp only [Option.getD_some]
          omega
        | none =>
          simp only [Option.getD_none]
          omega
      simp only [List.mem_cons] at h
      rcases h with h | h
      · subst h
        refine ⟨hpos, he.1, he.2, (o, sc.2), ho, hg, ?_⟩
        cases hf : findFrom t sc.2 (sc.1 + 1) with
        | some j =>
          obtain ⟨hj1, hj2, hj3⟩ := findFrom_spec hf
          simp only [hf, Option.getD_some]
          exact Or.inl hj3
        | none =>
          simp only [hf, Option.getD_none]
          exact Or.inr trivial
      · obtain ⟨h1, h2, h3, hex⟩ := ih _ r h
        refine ⟨?_, h2, h3, hex⟩
        have := he.1
        omega

/-- Consecutive recorded regions are separated: each starts strictly after
the previous one ends. -/
lemma quoteStep_chain (pairs : List (Char × Char)) (t : Text) :
    ∀ (fuel pos : Nat),
      List.Chain' (fun a b : Nat × Nat => a.2 < b.1)
        (quoteStep pairs t fuel pos) := by
  intro fuel
  induction fuel with
  | zero => intro pos; simp [quoteStep]
  | succ fuel ih =>
    intro pos
    unfold quoteStep
    cases hn : nextOpen pairs t pos with
    | none => simp
    | some sc =>
      rw [List.chain'_cons']
      refine ⟨?_, ih _⟩
      intro y hy
      have hmem := List.mem_of_mem_head? hy
      have := (quoteStep_mem pairs t fuel _ y hmem).1
      omega

/-- The text `don't stop`, in which the modular scanner's apostrophe key
fires. -/
def apText : Text := "don".toList ++ [sqChar] ++ "t stop".toList

/-- C1 counterexample: on `She said "I love this" but I disagree.` the
single recorded sentence is the entire text (the only `[.!?]` boundary is
the final period), so the lone entry of `sentences_with_pronouns` is the
whole input, not a span equivalent to `but I disagree.`. -/
theorem c1_sentence_is_whole_text :
    (countPersonalPronouns exText).sentencesWithPronouns = [exText] ∧
      exText ≠ "but I disagree.".toList := by
  constructor
  · decide
  · decide

/-- C1 (amended): on `She said "I love this" but I disagree.` the quoted
`I` at offset 10 is discarded, the trailing `I` is the only counted match
(`count = 1`, `found_pronouns = ["I"]`, quoted region `(9, 21)`), and the
single entry of `sentences_with_pronouns` is the sentence span containing
that trailing `I`, which is the whole input (the text forms one sentence). -/
theorem c1_count_personal_pronouns_example :
    (countPersonalPronouns exText).count = 1 ∧
      (countPersonalPronouns exText).foundPronouns = [['I']] ∧
      (countPersonalPronouns exText).quotedRegions = [(9, 21)] ∧
      (countPersonalPronouns exText).sentencesWithPronouns = [exText] ∧
      (countPersonalPronouns exText).flag = true := by
  refine ⟨?_, ?_, ?_, ?_, ?_⟩ <;> decide

/-- C2 counterexample: the `count_personal_pronouns` copy in
src/modular/article_processor.py opens a quoted region at a straight
single quote (apostrophe): on `don't stop` it records the region
`(3, 9)` opened at the apostrophe, which is none of the three delimiters
named by the claim. -/
theorem c2_apostrophe_opens_region :
    findQuotes apQuotePairs apText = [(3, 9)] ∧
      apText.get? 3 = some sqChar ∧
      sqChar ∉ [dqChar, ldqChar, lsqChar] := by
  refine ⟨?_, ?_, ?_⟩ <;> decide

/-- C2 (amended): in the src/make_analysis.py copy of
`count_personal_pronouns`, every recorded quoted region opens at one of the
straight double quote, the curly left double quote, or the curly left
single quote, each mapped to its matching closer (the region ends at that
closer, or at the final character when unbalanced).  The modular copy
instead uses the straight double quote and the straight single quote. -/
theorem c2_quote_delimiters (t : Text) (r : Nat × Nat)
    (h : r ∈ findQuotes maQuotePairs t) :
    ∃ p, p ∈ maQuotePairs ∧ t.get? r.1 = some p.1 ∧
      (t.get? r.2 = some p.2 ∨ r.2 = t.length - 1) := by
  exact (quoteStep_mem maQuotePairs t _ _ r h).2.2.2

/-- C2 witness: the region `(9, 21)` of the example text opens at the
straight double quote and closes at its matching closer. -/
theorem c2_quote_delimiters_witness :
    ∃ p, p ∈ maQuotePairs ∧ exText.get? 9 = some p.1 ∧
      (exText.get? 21 = some p.2 ∨ 21 = exText.length - 1) :=
  c2_quote_delimiters exText (9, 21) (by decide)

/-- C10: for every input, the `quoted_regions` list returned by
`count_personal_pronouns` consists of well-formed in-bounds intervals
(`r.1 ≤ r.2 < length`), and consecutive recorded regions are disjoint and
ordered: each later region starts strictly after the previous one ends. -/
theorem c10_quoted_regions_invariant (t : Text) :
    (∀ r ∈ (countPersonalPronouns t).quotedRegions,
        r.1 ≤ r.2 ∧ r.2 < t.length) ∧
      List.Chain' (fun a b : Nat × Nat => a.2 < b.1)
        (countPersonalPronouns t).quotedRegions := by
  have hq : (countPersonalPronouns t).quotedRegions =
      findQuotes maQuotePairs t := rfl
  rw [hq]
  constructor
  · intro r h
    have := quoteStep_mem maQuotePairs t _ _ r h
    exact ⟨this.2.1, this.2.2.1⟩
  · exact quoteStep_chain maQuotePairs t _ _

/-- C10 witness: the invariant evaluated on the example text, whose single
region is `(9, 21)` inside the 38-character input. -/
theorem c10_quoted_regions_invariant_witness :
    (∀ r ∈ (countPersonalPronouns exText).quotedRegions,
        r.1 ≤ r.2 ∧ r.2 < exText.length) ∧
      List.Chain' (fun a b : Nat × Nat => a.2 < b.1)
        (countPersonalPronouns exText).quotedRegions :=
  c10_quoted_regions_invariant exText

/-!
## The final bracket pass never leaves a same-line bracket pair
-/

lemma nl_ne_close : nlChar ≠ ']' := by decide

lemma open_ne_close : '[' ≠ ']' := by decide

lemma open_ne_nl : '[' ≠ nlChar := by decide

lemma scanToClose_length :
    ∀ {r r' : Text}, scanToClose r = some r' → r'.length < r.length := by
  intro r
  induction r with
  | nil => intro r' h; simp [scanToClose] at h
  | cons c rest ih =>
    intro r' h
    by_cases hc : c = ']'
    · simp [scanToClose, hc] at h
      subst h
      simp
    · by_cases hn : c = nlChar
      · simp [scanToClose, hc, hn, nl_ne_close] at h
      · simp [scanToClose, hc, hn] at h
        have := ih h
        simp
        omega

lemma scanToClose_append_none {x y : Text}
    (h : scanToClose (x ++ y) = none) : scanToClose x = none := by
  induction x with
  | nil => simp [scanToClose]
  | cons c x' ih =>
    by_cases hc : c = ']'
    · simp [scanToClose, hc] at h
    · by_cases hn : c = nlChar
      · simp [scanToClose, hc, hn, nl_ne_close]
      · simp [scanToClose, hc, hn] at h ⊢
        exact ih h

lemma scanToClose_append_some {x y : Text} {r : Text}
    (h : scanToClose x = some r) : scanToClose (x ++ y) = some (r ++ y) := by
  induction x with
  | nil => simp [scanToClose] at h
  | cons c x' ih =>
    by_cases hc : c = ']'
    · simp [scanToClose, hc] at h ⊢
      rw [h]
    · by_cases hn : c = nlChar
      · simp [scanToClose, hc, hn, nl_ne_close] at h
      · simp [scanToClose, hc, hn] at h ⊢
        exact ih h

lemma scanToClose_bracketSub :
    ∀ (f : Nat) (r : Text), scanToClose r = none →
      scanToClose (bracketSubF f r) = none := by
  intro f
  induction f with
  | zero => intro r h; simpa [bracketSubF] using h
  | succ f ih =>
    intro r h
    cases r with
    | nil => simp [bracketSubF, scanToClose]
    | cons d r' =>
      have hd : d ≠ ']' := by
        intro hd
        simp [scanToClose, hd] at h
      by_cases hn : d = nlChar
      · have hbr : d ≠ '[' := by rw [hn]; exact fun hh => open_ne_nl hh.symm
        simp [bracketSubF, hbr, scanToClose, hd, hn, nl_ne_close]
      · have hr' : scanToClose r' = none := by
          simpa [scanToClose, hd, hn] using h
        by_cases hbr : d = '['
        · simp [bracketSubF, hbr, hr', scanToClose, open_ne_close, open_ne_nl]
          exact ih r' hr'
        · simp [bracketSubF, hbr, scanToClose, hd, hn]
          exact ih r' hr'

/-- `re.sub(r'\[.*?\]', '', t)` leaves no `[` that is closed by a `]`
later on the same line. -/
lemma bracketSub_noPair :
    ∀ (f : Nat) (t : Text), t.length < f →
      hasPair (bracketSubF f t) = false := by
  intro f
  induction f with
  | zero => intro t h; omega
  | succ f ih =>
    intro t hlen
    cases t with
    | nil => simp [bracketSubF, hasPair]
    | cons c rest =>
      simp only [List.length_cons] at hlen
      by_cases hbr : c = '['
      · cases hs : scanToClose rest with
        | some rem =>
          have hr := scanToClose_length hs
          simp only [bracketSubF, hbr, if_pos rfl, hs]
          exact ih rem (by omega)
        | none =>
          simp only [bracketSubF, hbr, if_pos rfl, hs, hasPair,
            Bool.or_eq_false_iff, Bool.and_eq_false_iff]
          refine ⟨Or.inr ?_, ih rest (by omega)⟩
          rw [scanToClose_bracketSub f rest hs]
          rfl
      · simp only [bracketSubF, if_neg hbr, hasPair, Bool.or_eq_false_iff,
          Bool.and_eq_false_iff]
        refine ⟨Or.inl ?_, ih rest (by omega)⟩
        simpa using hbr

lemma hasPair_tail {c : Char} {t : Text}
    (h : hasPair (c :: t) = false) : hasPair t = false := by
  simp only [hasPair, Bool.or_eq_false_iff] at h
  exact h.2

lemma hasPair_dropWhile {p : Char → Bool} :
    ∀ {t : Text}, hasPair t = false → hasPair (t.dropWhile p) = false := by
  intro t
  induction t with
  | nil => intro h; simpa using h
  | cons c rest ih =>
    intro h
    by_cases hp : p c
    · rw [List.dropWhile_cons_of_pos hp]
      exact ih (hasPair_tail h)
    · rwa [List.dropWhile_cons_of_neg hp]

lemma hasPair_append_left :
    ∀ {a : Text} (b : Text), hasPair (a ++ b) = false → hasPair a = false := by
  intro a
  induction a with
  | nil => intro b _; rfl
  | cons c a' ih =>
    intro b h
    simp only [List.cons_append, hasPair, Bool.or_eq_false_iff] at h ⊢
    obtain ⟨h1, h2⟩ := h
    refine ⟨?_, ih b h2⟩
    cases hs : scanToClose a' with
    | none => simp
    | some r =>
      simp only [List.append_eq] at h1
      rw [scanToClose_append_some hs] at h1
      simpa using h1

lemma dropTrailing_decomp :
    ∀ t : Text, ∃ s, t = dropTrailing t ++ s := by
  intro t
  induction t with
  | nil => exact ⟨[], rfl⟩
  | cons c rest ih =>
    obtain ⟨s, hs⟩ := ih
    cases hd : dropTrailing rest with
    | nil =>
      by_cases hc : pySpace c
      · exact ⟨c :: rest, by simp [dropTrailing, hd, hc]⟩
      · refine ⟨rest, ?_⟩
        simp [dropTrailing, hd, hc]
    | cons d r =>
      refine ⟨s, ?_⟩
      rw [hd] at hs
      simp only [dropTrailing, hd, List.cons_append]
      simp [hs]

lemma hasPair_pyStrip {t : Text} (h : hasPair t = false) :
    hasPair (pyStrip t) = false := by
  unfold pyStrip
  have h1 : hasPair (t.dropWhile pySpace) = false := hasPair_dropWhile h
  obtain ⟨s, hs⟩ := dropTrailing_decomp (t.dropWhile pySpace)
  rw [hs] at h1
  exact hasPair_append_left s h1

lemma cleanPipeline_noPair (z : Text) : hasPair (cleanPipeline z) = false := by
  unfold cleanPipeline
  exact hasPair_pyStrip (bracketSub_noPair _ _ (Nat.lt_succ_self _))

/-- Both result branches of `clean_content` run the cleaning pipeline. -/
lemma cleanContent_eq_pipeline {x y : Text} (h : cleanContent x = some y) :
    ∃ z, y = cleanPipeline z := by
  unfold cleanContent at h
  cases hj : jsonLoads x with
  | none =>
    rw [hj] at h
    exact ⟨x, (Option.some_injective _ h).symm⟩
  | some v =>
    rw [hj] at h
    cases v with
    | jobj m =>
      simp only [cleanFromJson] at h
      cases hc : contentOf (objGet m contentKey) with
      | none => rw [hc] at h; simp at h
      | some s =>
        rw [hc] at h
        simp at h
        exact ⟨s, h.symm⟩
    | jnull => simp [cleanFromJson] at h
    | jbool b => simp [cleanFromJson] at h
    | jint n => simp [cleanFromJson] at h
    | jfloat => simp [cleanFromJson] at h
    | jstr s => simp [cleanFromJson] at h
    | jarr l => simp [cleanFromJson] at h

/-- C4 (amended): every string returned by `clean_content` is free of
same-line bracket pairs: it contains no `[` closed by a `]` later on the
same line (no match of `\[.*?\]`).  A `[` ... `]` fragment spanning a
newline, and runs of three or more newlines, can remain. -/
theorem c4_no_bracket_pair (x y : Text) (h : cleanContent x = some y) :
    hasPair y = false := by
  obtain ⟨z, hz⟩ := cleanContent_eq_pipeline h
  rw [hz]
  exact cleanPipeline_noPair z

/-- C4 witness: the bracket-pair freedom evaluated on a concrete input. -/
theorem c4_no_bracket_pair_witness :
    hasPair ("Hello world.".toList) = false :=
  c4_no_bracket_pair ("Hello world.".toList) ("Hello world.".toList)
    (by decide)

/-- The input `a\n[x]\n\nb [c\nd]` of the C4 counterexample. -/
def cx4 : Text :=
  "a".toList ++ [nlChar, '[', 'x', ']', nlChar, nlChar] ++ "b [c".toList ++
    [nlChar] ++ "d]".toList

/-- Its cleaned output `a\n\n\nb [c\nd]`. -/
def cy4 : Text :=
  "a".toList ++ [nlChar, nlChar, nlChar] ++ "b [c".toList ++ [nlChar] ++
    "d]".toList

/-- C4 counterexample: cleaning `a\n[x]\n\nb [c\nd]` yields
`a\n\n\nb [c\nd]`, which contains three consecutive newlines (offsets
1-3; the bracket removal joined the two newline runs) and a
bracket-delimited fragment (`[` at offset 6, `]` at offset 10, spanning a
newline, which `\[.*?\]` cannot match). -/
theorem c4_output_violates_claim :
    cleanContent cx4 = some cy4 ∧
      cy4.get? 1 = some nlChar ∧ cy4.get? 2 = some nlChar ∧
      cy4.get? 3 = some nlChar ∧
      cy4.get? 6 = some '[' ∧ cy4.get? 10 = some ']' := by
  refine ⟨?_, ?_, ?_, ?_, ?_, ?_⟩ <;> decide

/-- The input `a\n[x]\n\nb` of the C3 counterexample. -/
def cx3 : Text := "a".toList ++ [nlChar, '[', 'x', ']', nlChar, nlChar] ++ "b".toList

/-- Its cleaned output `a\n\n\nb`. -/
def cy3 : Text := "a".toList ++ [nlChar, nlChar, nlChar] ++ "b".toList

/-- The result `a\n\nb` of cleaning that output again. -/
def cz3 : Text := "a".toList ++ [nlChar, nlChar] ++ "b".toList

/-- C3 counterexample: `clean_content` is not idempotent.  Cleaning
`a\n[x]\n\nb` yields `a\n\n\nb` (bracket removal runs after newline
collapsing and joins the two newline runs); cleaning that output again
collapses the triple newline to `a\n\nb`, a different string. -/
theorem c3_not_idempotent :
    cleanContent cx3 = some cy3 ∧ cleanContent cy3 = some cz3 ∧
      cy3 ≠ cz3 := by
  refine ⟨?_, ?_, ?_⟩ <;> decide

/-- C5 counterexample: `clean_content` raises on the input `5`: it is valid
JSON, so `json.loads` succeeds with the integer `5`, and `data.get`
raises `AttributeError` (`none` models the raised exception; the
`except` clause catches only `json.JSONDecodeError`). -/
theorem c5_raises_on_non_object_json :
    cleanContent ("5".toList) = none := by decide

/-- C5 (amended): `clean_content` returns a result whenever `json.loads`
fails (the entire input is treated as raw text and cleaned) and whenever
the input parses as a JSON object whose `content` entry is a string (or is
absent, the default being the empty string); when the input parses as
non-object JSON (e.g. `5`) the call raises `AttributeError`, and a
non-string `content` value raises `TypeError`. -/
theorem c5_total_on_raw_text (x : Text) :
    (jsonLoads x = none → cleanContent x = some (cleanPipeline x)) ∧
      (∀ m s, jsonLoads x = some (PyValue.jobj m) →
        objGet m contentKey = PyValue.jstr s →
        cleanContent x = some (cleanPipeline s)) := by
  constructor
  · intro h
    unfold cleanContent
    rw [h]
  · intro m s hm hs
    unfold cleanContent
    rw [hm]
    simp only [cleanFromJson, hs]
    rfl

/-- C5 witness: the raw-text branch on `plain text`, which is not JSON. -/
theorem c5_total_on_raw_text_witness :
    cleanContent ("plain text".toList) =
      some (cleanPipeline ("plain text".toList)) :=
  (c5_total_on_raw_text ("plain text".toList)).1 rfl

/-!
## Each cleaning transformation is the identity on normal-form text
-/

lemma leadsWith_decomp :
    ∀ {pat t : Text}, leadsWith pat t = true → t = pat ++ t.drop pat.length := by
  intro pat
  induction pat with
  | nil => intro t _; simp
  | cons p ps ih =>
    intro t h
    cases t with
    | nil => simp [leadsWith] at h
    | cons c cs =>
      simp only [leadsWith, Bool.and_eq_true, decide_eq_true_eq] at h
      obtain ⟨hp, hrest⟩ := h
      subst hp
      simpa using ih hrest

lemma scanToClose_skip :
    ∀ (l r : Text), (∀ c ∈ l, c ≠ ']' ∧ c ≠ nlChar) →
      scanToClose (l ++ r) = scanToClose r := by
  intro l
  induction l with
  | nil => intro r _; rfl
  | cons c l' ih =>
    intro r h
    have hc := h c (by simp)
    simp only [List.cons_append, scanToClose, if_neg hc.1, if_neg hc.2]
    exact ih r (fun d hd => h d (by simp [hd]))

lemma imageLit_chars : ∀ c ∈ imageLit, c ≠ ']' ∧ c ≠ nlChar := by decide

lemma matchImage_none {rest : Text} (h : scanToClose rest = none) :
    matchImage rest = none := by
  unfold matchImage
  by_cases hl : leadsWith imageLit rest = true
  · rw [if_pos hl]
    have hd := leadsWith_decomp hl
    rw [hd, scanToClose_skip imageLit _ imageLit_chars] at h
    simpa using h
  · rw [if_neg hl]

lemma imageSub_id :
    ∀ (f : Nat) {t : Text}, hasPair t = false → imageSubF f t = t := by
  intro f
  induction f with
  | zero => intro t _; rfl
  | succ f ih =>
    intro t h
    cases t with
    | nil => rfl
    | cons c rest =>
      simp only [hasPair, Bool.or_eq_false_iff, Bool.and_eq_false_iff] at h
      by_cases hc : c = '['
      · have hs : scanToClose rest = none := by
          rcases h.1 with h1 | h1
          · simp [hc] at h1
          · simpa using h1
        simp only [imageSubF, if_pos hc, matchImage_none hs]
        rw [ih h.2]
      · simp only [imageSubF, if_neg hc]
        rw [ih h.2]

lemma bracketSub_id :
    ∀ (f : Nat) {t : Text}, hasPair t = false → bracketSubF f t = t := by
  intro f
  induction f with
  | zero => intro t _; rfl
  | succ f ih =>
    intro t h
    cases t with
    | nil => rfl
    | cons c rest =>
      simp only [hasPair, Bool.or_eq_false_iff, Bool.and_eq_false_iff] at h
      by_cases hc : c = '['
      · have hs : scanToClose rest = none := by
          rcases h.1 with h1 | h1
          · simp [hc] at h1
          · simpa using h1
        simp only [bracketSubF, if_pos hc, hs]
        rw [ih h.2]
      · simp only [bracketSubF, if_neg hc]
        rw [ih h.2]

lemma hasSource_tail {c : Char} {t : Text}
    (h : hasSource (c :: t) = false) : hasSource t = false := by
  simp only [hasSource, Bool.or_eq_false_iff] at h
  exact h.2

lemma sourceSub_id :
    ∀ (f : Nat) {t : Text}, hasSource t = false → sourceSubF f t = t := by
  intro f
  induction f with
  | zero => intro t _; rfl
  | succ f ih =>
    intro t h
    cases t with
    | nil => rfl
    | cons c rest =>
      have hm : matchSource (c :: rest) = none := by
        simp only [hasSource, Bool.or_eq_false_iff] at h
        simpa using h.1
      simp only [sourceSubF, hm]
      exact congrArg (c :: ·) (ih (hasSource_tail h))

lemma hasH2_tail {c : Char} {t : Text}
    (h : hasH2 (c :: t) = false) : hasH2 t = false := by
  simp only [hasH2, Bool.or_eq_false_iff] at h
  exact h.2

lemma h2Sub_id :
    ∀ (f : Nat) {t : Text}, hasH2 t = false → h2SubF f t = t := by
  intro f
  induction f with
  | zero => intro t _; rfl
  | succ f ih =>
    intro t h
    cases t with
    | nil => rfl
    | cons c rest =>
      have hl : leadsWith "H2:".toList (c :: rest) = false := by
        simp only [hasH2, Bool.or_eq_false_iff] at h
        exact h.1
      have hl2 : leadsWith ['H', '2', ':'] (c :: rest) = false := hl
      simp [h2SubF, hl2, ih (hasH2_tail h)]

lemma okNl_cons (c : Char) (rest : Text) :
    okNl (c :: rest) = (okNlCond c rest && okNl rest) := rfl

lemma okNl_tail {c : Char} {t : Text} (h : okNl (c :: t) = true) :
    okNl t = true := by
  rw [okNl_cons, Bool.and_eq_true] at h
  exact h.2

lemma okNl_head {c : Char} {t : Text} (h : okNl (c :: t) = true) :
    okNlCond c t = true := by
  rw [okNl_cons, Bool.and_eq_true] at h
  exact h.1

lemma okNl_drop {t : Text} (h : okNl t = true) :
    ∀ n, okNl (t.drop n) = true := by
  induction t with
  | nil => intro n; simp [okNl]
  | cons c rest ih =>
    intro n
    cases n with
    | zero => exact h
    | succ n => exact ih (okNl_tail h) n

lemma lastNl_cons_nl (x : Text) : ∃ k, lastNlIdx (nlChar :: x) = some k := by
  cases hx : lastNlIdx x with
  | some j => exact ⟨j + 1, by simp [lastNlIdx, hx]⟩
  | none => exact ⟨0, by simp [lastNlIdx, hx]⟩

lemma lastNlIdx_cons (c : Char) (rest : Text) :
    lastNlIdx (c :: rest) =
      match lastNlIdx rest with
      | some k => some (k + 1)
      | none => if c = nlChar then some 0 else none := rfl

lemma lastNl_two {x : Text} {k : Nat}
    (h : lastNlIdx (nlChar :: nlChar :: x) = some k) : 1 ≤ k := by
  obtain ⟨m, hm⟩ := lastNl_cons_nl x
  rw [lastNlIdx_cons, hm] at h
  simp at h
  omega

lemma lastNl_zero {w : Text} (h : lastNlIdx w = some 0) :
    ∃ w', w = nlChar :: w' := by
  cases w with
  | nil => simp [lastNlIdx] at h
  | cons c w' =>
    refine ⟨w', ?_⟩
    cases hw : lastNlIdx w' with
    | some j => simp [lastNlIdx, hw] at h
    | none =>
      simp only [lastNlIdx, hw] at h
      by_cases hc : c = nlChar
      · rw [hc]
      · simp [hc] at h

lemma takeWhile_cons_decomp {p : Char → Bool} {t : Text} {x : Char} {w : Text}
    (h : t.takeWhile p = x :: w) : ∃ r, t = x :: r ∧ p x = true := by
  cases t with
  | nil => simp at h
  | cons c r =>
    by_cases hc : p c
    · rw [List.takeWhile_cons_of_pos hc] at h
      obtain ⟨hcx, _⟩ := List.cons.inj h
      subst hcx
      exact ⟨r, rfl, hc⟩
    · rw [List.takeWhile_cons_of_neg hc] at h
      simp at h

lemma takeWhile_len_drop (p : Char → Bool) :
    ∀ t : Text, t.takeWhile p ++ t.drop (t.takeWhile p).length = t := by
  intro t
  induction t with
  | nil => rfl
  | cons c r ih =>
    by_cases hc : p c
    · rw [List.takeWhile_cons_of_pos hc]
      simpa using ih
    · rw [List.takeWhile_cons_of_neg hc]
      simp

/-- Under `okNl`, a newline is followed by at most one further newline. -/
lemma nlRun_le_one {rest : Text} (h : okNl (nlChar :: rest) = true) :
    (rest.takeWhile (fun d => d = nlChar)).length ≤ 1 := by
  by_contra hlen
  have h2 : ∃ r₂, rest = nlChar :: nlChar :: r₂ := by
    cases hr : rest.takeWhile (fun d => d = nlChar) with
    | nil => rw [hr] at hlen; simp at hlen
    | cons x w =>
      obtain ⟨r1, hr1, hx⟩ := takeWhile_cons_decomp hr
      simp only [decide_eq_true_eq] at hx
      subst hx
      cases hw : w with
      | nil => rw [hr, hw] at hlen; simp at hlen
      | cons x2 w2 =>
        rw [hr1, List.takeWhile_cons_of_pos (by simp)] at hr
        obtain ⟨-, hr2⟩ := List.cons.inj hr
        rw [hw] at hr2
        obtain ⟨r2b, hr2b, hx2⟩ := takeWhile_cons_decomp hr2
        simp only [decide_eq_true_eq] at hx2
        subst hx2
        exact ⟨r2b, by rw [hr1, hr2b]⟩
  obtain ⟨r₂, hr₂⟩ := h2
  subst hr₂
  have hcond := okNl_head h
  have hW : (nlChar :: nlChar :: r₂).takeWhile pySpace =
      nlChar :: nlChar :: (r₂.takeWhile pySpace) := by
    rw [List.takeWhile_cons_of_pos (by simp [pySpace]),
      List.takeWhile_cons_of_pos (by simp [pySpace])]
  obtain ⟨k, hk⟩ := lastNl_cons_nl (nlChar :: r₂.takeWhile pySpace)
  have hge := lastNl_two hk
  simp [okNlCond, hW, hk] at hcond
  omega

lemma nl3Sub_id :
    ∀ (f : Nat) {t : Text}, okNl t = true → nl3SubF f t = t := by
  intro f
  induction f with
  | zero => intro t _; rfl
  | succ f ih =>
    intro t h
    cases t with
    | nil => rfl
    | cons c rest =>
      by_cases hc : c = nlChar
      · subst hc
        have hrun := nlRun_le_one h
        have hlt : ¬(2 ≤ (rest.takeWhile (fun d => d = nlChar)).length) := by
          omega
        simp only [nl3SubF, if_true, hlt, if_false, decide_True, ite_true,
          ite_false, decide_False]
        rw [ih (okNl_drop (okNl_tail h) _), List.cons_append,
          takeWhile_len_drop]
      · simp only [nl3SubF, if_neg hc]
        rw [ih (okNl_tail h)]

lemma nlwsSub_id :
    ∀ (f : Nat) {t : Text}, okNl t = true → nlwsSubF f t = t := by
  intro f
  induction f with
  | zero => intro t _; rfl
  | succ f ih =>
    intro t h
    cases t with
    | nil => rfl
    | cons c rest =>
      by_cases hc : c = nlChar
      · subst hc
        cases hW : lastNlIdx (rest.takeWhile pySpace) with
        | none =>
          simp only [nlwsSubF, hW]
          rw [ih (okNl_tail h)]
          simp
        | some k =>
          have hcond := okNl_head h
          have hk : k = 0 := by
            simp [okNlCond, hW] at hcond
            exact hcond
          subst hk
          obtain ⟨w', hw'⟩ := lastNl_zero hW
          obtain ⟨r₂, hr₂, -⟩ := takeWhile_cons_decomp hw'
          subst hr₂
          simp only [nlwsSubF, hW, List.drop_succ_cons, List.drop_zero]
          rw [ih (okNl_tail (okNl_tail h))]
          simp
      · simp only [nlwsSubF, if_neg hc]
        rw [ih (okNl_tail h)]

lemma okSp_tail {c : Char} {t : Text} (h : okSp (c :: t) = true) :
    okSp t = true := by
  cases t with
  | nil => rfl
  | cons d rest =>
    simp only [okSp, Bool.and_eq_true] at h
    exact h.2

lemma spacesSub_id :
    ∀ (f : Nat) {t : Text}, okSp t = true → spacesSubF f t = t := by
  intro f
  induction f with
  | zero => intro t _; rfl
  | succ f ih =>
    intro t h
    cases t with
    | nil => rfl
    | cons c rest =>
      by_cases hc : c = ' ' || c = tabChar
      · have hcsp : c = ' ' := by
          cases rest with
          | nil =>
            simp only [okSp] at h
            rcases Bool.or_eq_true_iff.1 hc with h1 | h1
            · simpa using h1
            · simp only [decide_eq_true_eq] at h1
              rw [h1] at h
              simp at h
          | cons d r =>
            simp only [okSp, Bool.and_eq_true] at h
            rcases Bool.or_eq_true_iff.1 hc with h1 | h1
            · simpa using h1
            · simp only [decide_eq_true_eq] at h1
              rw [h1] at h
              have := h.1.1
              simp at this
        have hrest : rest.dropWhile (fun d => d = ' ' || d = tabChar) = rest := by
          cases rest with
          | nil => rfl
          | cons d r =>
            simp only [okSp, Bool.and_eq_true] at h
            have hd : ¬(d = ' ' || d = tabChar) = true := by
              have h2 := h.1.2
              rw [hcsp] at h2
              simpa using h2
            exact List.dropWhile_cons_of_neg (by simpa using hd)
        simp only [spacesSubF, hc, if_true, hrest]
        rw [ih (okSp_tail h), hcsp]
      · simp only [spacesSubF, hc]
        rw [ih (okSp_tail h)]
        simp [hc]

lemma dropWhile_id_of_beginsOk {t : Text} (h : beginsOk t = true) :
    t.dropWhile pySpace = t := by
  cases t with
  | nil => rfl
  | cons c rest =>
    simp only [beginsOk, Bool.not_eq_true'] at h
    exact List.dropWhile_cons_of_neg (by simp [h])

lemma dropTrailing_cons (c : Char) (rest : Text) :
    dropTrailing (c :: rest) =
      match dropTrailing rest with
      | [] => if pySpace c then [] else [c]
      | r => c :: r := rfl

lemma dropTrailing_id_of_endsOk :
    ∀ {t : Text}, endsOk t = true → dropTrailing t = t := by
  intro t
  induction t with
  | nil => intro _; rfl
  | cons c rest ih =>
    intro h
    cases rest with
    | nil =>
      simp only [endsOk, Bool.not_eq_true'] at h
      simp [dropTrailing, h]
    | cons d r =>
      have hr : dropTrailing (d :: r) = d :: r := ih h
      rw [dropTrailing_cons, hr]

lemma pyStrip_id {t : Text} (hb : beginsOk t = true) (he : endsOk t = true) :
    pyStrip t = t := by
  unfold pyStrip
  rw [dropWhile_id_of_beginsOk hb]
  exact dropTrailing_id_of_endsOk he

/-- On normal-form text the whole cleaning pipeline is the identity. -/
lemma cleanPipeline_id {t : Text} (hp : hasPair t = false)
    (hs : hasSource t = false) (hh : hasH2 t = false) (hn : okNl t = true)
    (hsp : okSp t = true) (hb : beginsOk t = true) (he : endsOk t = true) :
    cleanPipeline t = t := by
  simp only [cleanPipeline]
  rw [imageSub_id _ hp, sourceSub_id _ hs, h2Sub_id _ hh, nl3Sub_id _ hn,
    nlwsSub_id _ hn, spacesSub_id _ hsp, bracketSub_id _ hp]
  exact pyStrip_id hb he

/-- C3 (amended): `clean_content` is not idempotent in general (the final
bracket removal can expose new collapsible newline runs and new `H2:` or
`Source:` markers to a second pass).  It is idempotent on every input
whose cleaned output is in normal form — not parseable as JSON and free of
same-line bracket pairs, source-URL markers, `H2:` markers, collapsible
newline or space/tab runs, and surrounding whitespace: a second
application then returns the first output unchanged. -/
theorem c3_idempotent_on_normal_form (x y : Text)
    (h1 : cleanContent x = some y) (h2 : normalForm y = true) :
    cleanContent y = some y := by
  simp only [normalForm, Bool.and_eq_true, Bool.not_eq_true'] at h2
  obtain ⟨⟨⟨⟨⟨⟨⟨hp, hs⟩, hh⟩, hn⟩, hsp⟩, hb⟩, he⟩, hj⟩ := h2
  unfold cleanContent
  rw [Option.isNone_iff_eq_none.1 hj]
  rw [cleanPipeline_id hp hs hh hn hsp hb he]

/-- C3 witness: `Hello there. All good.` cleans to itself; its cleaned
output is in normal form and a second application is the identity. -/
theorem c3_idempotent_witness :
    cleanContent ("Hello there. All good.".toList) =
      some ("Hello there. All good.".toList) :=
  c3_idempotent_on_normal_form ("Hello there. All good.".toList)
    ("Hello there. All good.".toList) (by decide) (by decide)

/-!
## Claims about the analysis client
-/

/-- A reply text that is not valid JSON. -/
def badReply : Text := "not json".toList

/-- C6: evaluation of `make_api_call` (src/ai_analysis.py) under failing
services.  With `max_retries = 2`: a token-count request that always
raises makes the first `except` iteration raise `UnboundLocalError` (its
debug print reads `response` before any assignment); the same happens
when only the first two attempts fail (the claim expects the third
attempt's success to be returned); and a service that always returns
non-JSON text makes the handler's re-parse raise `JSONDecodeError`.  In
all three runs the call raises instead of retrying or returning `None`. -/
theorem c6_make_api_call_raises :
    makeApiCall (fun _ => ApiOutcome.countTokensFail) 2 =
        Except.error PyExc.unboundLocalError ∧
      makeApiCall (fun n => if n < 2 then ApiOutcome.countTokensFail
        else ApiOutcome.okResponse [lbChar, rbChar]) 2 =
        Except.error PyExc.unboundLocalError ∧
      makeApiCall (fun _ => ApiOutcome.okResponse badReply) 2 =
        Except.error PyExc.jsonDecodeError := by
  refine ⟨rfl, rfl, rfl⟩

/-- C7: in the categorization axis of `analyze_content`, a reply that is
valid JSON with an object whose `category` value is a string outside the
configured list yields a failure result with the category-membership
message, a reply that is not valid JSON yields a failure result with the
JSON-format message, and the two messages always differ; both are returned
as `AnalysisResult` values. -/
theorem c7_categorization_errors (categories : List Text) (reply : Text) :
    (∀ m v, jsonLoads reply = some (PyValue.jobj m) →
      dictItem m categoryKey = some v → pyValueIn v categories = false →
      analyzeContentCategorize categories reply =
        ⟨false, some reply, some (invalidCategoryMsg (pyStr v))⟩) ∧
    (jsonLoads reply = none →
      analyzeContentCategorize categories reply =
        ⟨false, some reply, some invalidJsonMsg⟩) ∧
    (∀ c d : Text, invalidCategoryMsg c ≠ invalidJsonMsg ++ d) := by
  refine ⟨?_, ?_, ?_⟩
  · intro m v hj hd hv
    unfold analyzeContentCategorize
    rw [hj]
    simp only [categorizeValue, hd, hv, Bool.false_eq_true, if_false]
  · intro hj
    unfold analyzeContentCategorize
    rw [hj]
  · intro c d heq
    have h8 : (invalidCategoryMsg c).get? 8 = (invalidJsonMsg ++ d).get? 8 := by
      rw [heq]
    rw [show invalidCategoryMsg c =
          "Invalid category returned: ".toList ++ c from rfl,
        List.get?_append (by decide),
        show invalidJsonMsg = "Invalid JSON response format: ".toList from rfl,
        List.get?_append (by decide)] at h8
    exact absurd h8 (by decide)

/-- C7 witness: the failure kinds on concrete replies with the category
list `["Email Marketing"]` — an out-of-list string category, a non-string
(integer) category value, and a non-JSON reply. -/
theorem c7_categorization_errors_witness :
    (analyzeContentCategorize ["Email Marketing".toList]
        ([lbChar, dqChar] ++ "category".toList ++ [dqChar] ++
          ": ".toList ++ [dqChar] ++ "Not A Real Category".toList ++
          [dqChar, rbChar]) =
      ⟨false, some ([lbChar, dqChar] ++ "category".toList ++ [dqChar] ++
          ": ".toList ++ [dqChar] ++ "Not A Real Category".toList ++
          [dqChar, rbChar]),
        some (invalidCategoryMsg
          (pyStr (PyValue.jstr "Not A Real Category".toList)))⟩) ∧
    (analyzeContentCategorize ["Email Marketing".toList]
        ([lbChar, dqChar] ++ "category".toList ++ [dqChar] ++
          ": 5".toList ++ [rbChar]) =
      ⟨false, some ([lbChar, dqChar] ++ "category".toList ++ [dqChar] ++
          ": 5".toList ++ [rbChar]),
        some (invalidCategoryMsg (pyStr (PyValue.jint 5)))⟩) ∧
    (analyzeContentCategorize ["Email Marketing".toList] badReply =
      ⟨false, some badReply, some invalidJsonMsg⟩) := by
  refine ⟨?_, ?_, ?_⟩
  · exact (c7_categorization_errors ["Email Marketing".toList] _).1
      [("category".toList, PyValue.jstr "Not A Real Category".toList)]
      (PyValue.jstr "Not A Real Category".toList) rfl rfl (by decide)
  · exact (c7_categorization_errors ["Email Marketing".toList] _).1
      [("category".toList, PyValue.jint 5)]
      (PyValue.jint 5) rfl rfl rfl
  · exact (c7_categorization_errors ["Email Marketing".toList] badReply).2.1
      rfl

/-- C8: `add_usage` increases the cost by exactly
`(i / 1,000,000) · 3.00 + (o / 1,000,000) · 15.00` in exact decimal
(rational) arithmetic and adds the raw token counts; in particular one
million tokens each way adds exactly 18.00; `reset` returns the tracker to
zero cost and zero token counts. -/
theorem c8_cost_tracker (t : CostTracker) (i o : ℕ) :
    (t.addUsage i o).cost =
        t.cost + (((i : ℚ) / 1000000) * 3 + ((o : ℚ) / 1000000) * 15) ∧
      (t.addUsage i o).inputTokens = t.inputTokens + i ∧
      (t.addUsage i o).outputTokens = t.outputTokens + o ∧
      (t.addUsage 1000000 1000000).cost = t.cost + 18 ∧
      t.reset.cost = 0 ∧ t.reset.inputTokens = 0 ∧
      t.reset.outputTokens = 0 := by
  refine ⟨rfl, rfl, rfl, ?_, rfl, rfl, rfl⟩
  show t.cost + (((1000000 : ℚ) / 1000000) * 3 +
    ((1000000 : ℚ) / 1000000) * 15) = t.cost + 18
  norm_num

/-!
## Query- and fragment-independence of `generate_unique_id`
-/

lemma takeWhile_all {p : Char → Bool} :
    ∀ {l : Text}, (∀ c ∈ l, p c = true) → l.takeWhile p = l := by
  intro l
  induction l with
  | nil => intro _; rfl
  | cons c r ih =>
    intro h
    rw [List.takeWhile_cons_of_pos (h c (by simp))]
    rw [ih (fun d hd => h d (by simp [hd]))]

lemma takeWhile_stop {p : Char → Bool} {x : Char} (hx : p x = false) :
    ∀ (l r : Text), (l ++ x :: r).takeWhile p = l.takeWhile p := by
  have hx' : ¬p x = true := by simp [hx]
  intro l r
  induction l with
  | nil =>
    rw [List.nil_append, List.takeWhile_cons_of_neg hx', List.takeWhile_nil]
  | cons c l' ih =>
    by_cases hc : p c
    · rw [List.cons_append, List.takeWhile_cons_of_pos hc,
        List.takeWhile_cons_of_pos hc, ih]
    · rw [List.cons_append, List.takeWhile_cons_of_neg hc,
        List.takeWhile_cons_of_neg hc]

lemma dropWhile_stop {p : Char → Bool} {x : Char} (hx : p x = false) :
    ∀ (l r : Text), (l ++ x :: r).dropWhile p = l.dropWhile p ++ x :: r := by
  have hx' : ¬p x = true := by simp [hx]
  intro l r
  induction l with
  | nil =>
    rw [List.nil_append, List.dropWhile_cons_of_neg hx', List.dropWhile_nil,
      List.nil_append]
  | cons c l' ih =>
    by_cases hc : p c
    · rw [List.cons_append, List.dropWhile_cons_of_pos hc,
        List.dropWhile_cons_of_pos hc, ih]
    · rw [List.cons_append, List.dropWhile_cons_of_neg hc,
        List.dropWhile_cons_of_neg hc, List.cons_append]

lemma dropWhile_head_false {p : Char → Bool} :
    ∀ {l : Text} {c : Char} {r : Text}, l.dropWhile p = c :: r → p c = false := by
  intro l
  induction l with
  | nil => intro c r h; simp at h
  | cons d l' ih =>
    intro c r h
    by_cases hd : p d
    · rw [List.dropWhile_cons_of_pos hd] at h
      exact ih h
    · rw [List.dropWhile_cons_of_neg hd] at h
      obtain ⟨hdc, -⟩ := List.cons.inj h
      rw [← hdc]
      simpa using hd

lemma drop_cons_mid (b1 b2 : Text) (c : Char) :
    (b1 ++ c :: b2).drop (b1.length + 1) = b2 := by
  have := @List.drop_left' Char (b1 ++ [c]) b2 (b1.length + 1) (by simp)
  simpa using this

lemma stripScheme_append (base x : Text) :
    stripScheme (base ++ '?' :: x) = stripScheme base ++ '?' :: x := by
  by_cases hc : ':' ∈ base
  · -- the first colon lies inside `base`
    obtain ⟨c0, b2, hdw⟩ : ∃ c0 b2,
        base.dropWhile (fun c => decide (c ≠ ':')) = c0 :: b2 := by
      cases hd : base.dropWhile (fun c => decide (c ≠ ':')) with
      | nil =>
        exfalso
        have h0 := List.takeWhile_append_dropWhile
          (fun c => decide (c ≠ ':')) base
        rw [hd, List.append_nil] at h0
        have hmem : ':' ∈ base.takeWhile (fun c => decide (c ≠ ':')) :=
          h0.symm ▸ hc
        have := List.mem_takeWhile_imp hmem
        simp at this
      | cons c0 b2 => exact ⟨c0, b2, rfl⟩
    have hc0 : c0 = ':' := by
      have := dropWhile_head_false hdw
      simpa using this
    subst hc0
    have hdec : base = base.takeWhile (fun c => decide (c ≠ ':')) ++
        ':' :: b2 := by
      conv_lhs => rw [← List.takeWhile_append_dropWhile
        (fun c => decide (c ≠ ':')) base]
      rw [hdw]
    set b1 := base.takeWhile (fun c => decide (c ≠ ':')) with hb1
    have hstop : (fun c => decide (c ≠ ':')) ':' = false := by simp
    have hpre : ∀ y : Text, (base ++ '?' :: y).takeWhile
        (fun c => decide (c ≠ ':')) = b1 := by
      intro y
      conv_lhs => rw [hdec]
      rw [List.append_assoc, List.cons_append, takeWhile_stop hstop]
      refine takeWhile_all ?_
      intro d hd
      rw [hb1] at hd
      exact List.mem_takeWhile_imp (p := fun c => decide (c ≠ ':'))
        (l := base) hd
    have hlenb : b1.length < base.length := by
      conv_rhs => rw [hdec]
      simp only [List.length_append, List.length_cons]
      omega
    have hlenw : b1.length < (base ++ '?' :: x).length := by
      have := hlenb
      simp only [List.length_append, List.length_cons]
      omega
    simp only [stripScheme, hpre, ← hb1]
    rw [if_pos hlenw, if_pos hlenb]
    by_cases hK : (headAlpha b1 && b1.all schemeChar) = true
    · rw [if_pos hK, if_pos hK]
      conv_lhs => rw [hdec]
      conv_rhs => rw [hdec]
      rw [List.append_assoc, List.cons_append, drop_cons_mid, drop_cons_mid]
    · rw [if_neg hK, if_neg hK]
  · -- no colon in `base`: any scheme candidate contains `?`
    have hall : ∀ c ∈ base, (fun c => decide (c ≠ ':')) c = true := by
      intro c hmem
      simp only [decide_eq_true_eq]
      intro hcol
      exact hc (hcol ▸ hmem)
    have hpreb : base.takeWhile (fun c => decide (c ≠ ':')) = base :=
      takeWhile_all hall
    have hsb : stripScheme base = base := by
      simp only [stripScheme, hpreb]
      rw [if_neg (by omega)]
    rw [hsb]
    have hpre : (base ++ '?' :: x).takeWhile (fun c => decide (c ≠ ':')) =
        base ++ '?' :: x.takeWhile (fun c => decide (c ≠ ':')) := by
      rw [List.takeWhile_append_of_pos hall,
        List.takeWhile_cons_of_pos (by simp)]
    simp only [stripScheme, hpre]
    by_cases hlen : (base ++ '?' :: x.takeWhile
        (fun c => decide (c ≠ ':'))).length < (base ++ '?' :: x).length
    · rw [if_pos hlen]
      have hqmem : '?' ∈ base ++ '?' :: x.takeWhile
          (fun c => decide (c ≠ ':')) := by simp
      have hKfalse : (headAlpha (base ++ '?' :: x.takeWhile
          (fun c => decide (c ≠ ':'))) && (base ++ '?' :: x.takeWhile
          (fun c => decide (c ≠ ':'))).all schemeChar) = false := by
        cases hall2 : (base ++ '?' :: x.takeWhile
            (fun c => decide (c ≠ ':'))).all schemeChar with
        | false => simp [hall2]
        | true =>
          exfalso
          have := List.all_eq_true.1 hall2 '?' hqmem
          simp [schemeChar] at this
      have hKne : ¬((headAlpha (base ++ '?' :: x.takeWhile
          (fun c => decide (c ≠ ':'))) && (base ++ '?' :: x.takeWhile
          (fun c => decide (c ≠ ':'))).all schemeChar) = true) := by
        rw [hKfalse]
        exact Bool.false_ne_true
      rw [if_neg hKne]
    · rw [if_neg hlen]

/-- After the scheme is removed, the netloc and path extracted from
`sb ++ '?' :: x` do not depend on `x`. -/
lemma netlocPath_query_indep (sb x y : Text) :
    (netlocRest (sb ++ '?' :: x)).1 = (netlocRest (sb ++ '?' :: y)).1 ∧
      (netlocRest (sb ++ '?' :: x)).2.takeWhile (fun c => c ≠ '?') =
        (netlocRest (sb ++ '?' :: y)).2.takeWhile (fun c => c ≠ '?') := by
  have hqstop : (fun c => decide (c ≠ '?')) '?' = false := by simp
  have hnstop : (fun c => decide (c ≠ '/') && decide (c ≠ '?')) '?' = false := by
    simp
  cases sb with
  | nil =>
    have hq : ∀ z : Text, netlocRest ([] ++ '?' :: z) = ([], '?' :: z) := by
      intro z
      cases z with
      | nil => rfl
      | cons c2 r =>
        simp only [List.nil_append, netlocRest]
        rw [if_neg (by simp)]
    rw [hq x, hq y]
    refine ⟨rfl, ?_⟩
    simp only
    rw [List.takeWhile_cons_of_neg (by simp),
      List.takeWhile_cons_of_neg (by simp)]
  | cons c1 sb1 =>
    cases sb1 with
    | nil =>
      simp only [List.cons_append, List.nil_append, netlocRest]
      have hnot : ¬(c1 = '/' && '?' = '/') = true := by
        simp
      rw [if_neg hnot, if_neg hnot]
      refine ⟨rfl, ?_⟩
      have hx := takeWhile_stop (p := fun c => decide (c ≠ '?'))
        (x := '?') (by simp) [c1] x
      have hy := takeWhile_stop (p := fun c => decide (c ≠ '?'))
        (x := '?') (by simp) [c1] y
      simp only [List.cons_append, List.nil_append] at hx hy
      rw [hx, hy]
    | cons c2 sb2 =>
      simp only [List.cons_append, netlocRest]
      by_cases hsl : (c1 = '/' && c2 = '/') = true
      · rw [if_pos hsl, if_pos hsl]
        constructor
        · simp only
          rw [takeWhile_stop hnstop, takeWhile_stop hnstop]
        · simp only
          rw [dropWhile_stop hnstop, dropWhile_stop hnstop,
            takeWhile_stop hqstop, takeWhile_stop hqstop]
      · rw [if_neg hsl, if_neg hsl]
        refine ⟨rfl, ?_⟩
        simp only
        have hx := takeWhile_stop (p := fun c => decide (c ≠ '?'))
          (x := '?') (by simp) (c1 :: c2 :: sb2) x
        have hy := takeWhile_stop (p := fun c => decide (c ≠ '?'))
          (x := '?') (by simp) (c1 :: c2 :: sb2) y
        simp only [List.cons_append] at hx hy
        rw [hx, hy]

lemma splitFragment_append {base q : Text} (f : Text) (hb : '#' ∉ base)
    (hq : '#' ∉ q) :
    splitFragment (base ++ '?' :: q ++ '#' :: f) = base ++ '?' :: q := by
  unfold splitFragment
  rw [takeWhile_stop (p := fun c => decide (c ≠ '#')) (x := '#') (by simp)]
  apply takeWhile_all
  intro c hmem
  simp only [decide_eq_true_eq]
  rcases List.mem_append.1 hmem with h | h
  · exact fun he => hb (he ▸ h)
  · rcases List.mem_cons.1 h with h2 | h2
    · subst h2
      decide
    · exact fun he => hq (he ▸ h2)

/-- C9: `generate_unique_id` returns the lowercased concatenation of the
URL's host (netloc) and path with all non-alphanumeric characters removed
(the specification's formula, stated as `specUniqueId`); consequently two
URLs that share everything before the query string and differ only in
query and fragment map to the same unique id. -/
theorem c9_generate_unique_id :
    (∀ url, generateUniqueId url = specUniqueId url) ∧
      (∀ base q1 f1 q2 f2 : Text, '#' ∉ base → '#' ∉ q1 → '#' ∉ q2 →
        generateUniqueId (base ++ '?' :: q1 ++ '#' :: f1) =
          generateUniqueId (base ++ '?' :: q2 ++ '#' :: f2)) := by
  constructor
  · intro url
    rfl
  · intro base q1 f1 q2 f2 hb hq1 hq2
    simp only [generateUniqueId, urlNetloc, urlPath]
    rw [splitFragment_append f1 hb hq1, splitFragment_append f2 hb hq2,
      stripScheme_append, stripScheme_append]
    obtain ⟨hn, hp⟩ := netlocPath_query_indep (stripScheme base) q1 q2
    rw [hn, hp]

/-- C9 witness: two URLs differing only in query and fragment share the id
`examplecomblogpost`. -/
theorem c9_generate_unique_id_witness :
    generateUniqueId ("https://example.com/blog/post".toList ++
        '?' :: "a=1".toList ++ '#' :: "top".toList) =
      generateUniqueId ("https://example.com/blog/post".toList ++
        '?' :: "b=2".toList ++ '#' :: "sec".toList) :=
  c9_generate_unique_id.2 "https://example.com/blog/post".toList
    "a=1".toList "top".toList "b=2".toList "sec".toList
    (by decide) (by decide) (by decide)
